import Mathlib

/-!
Verification of the move-prefix dataset pipeline (`prep_uci_dataset.py`).

The pipeline's own logic — movetext normalization, the translate/validate
loop, prefix generation and the corpus driver — is embedded directly from
the source.  The chess rules library it delegates to (python-chess) is not
part of the repository; following the spec's plug-in boundary
("{initialize, apply-if-legal, render}") it is modelled as an abstract
engine structure carrying the two contracts the pipeline relies on, and a
small concrete engine instantiates it for evaluation.
-/

set_option maxRecDepth 10000

/-- ASCII whitespace, as matched by Python's `\s` (ASCII) and `str.split()`. -/
def isPySpace (c : Char) : Bool :=
  c = ' ' || c = '\t' || c = '\n' || c = '\r' || c = '\x0b' || c = '\x0c'

/-- Scanner for `re.sub(r'\x7b[^\x7d]*\x7d', '', ...)`.  The accumulator holds
the characters of a currently open, not yet closed brace group (reversed,
including the opening brace); on a closing brace the group is discarded,
and a group left open at the end of input is kept literally, matching the
regex's failure to match an unclosed brace. -/
def removeBracesAux : List Char → List Char → List Char
  | [], pending => pending.reverse
  | c :: rest, pending =>
    match pending with
    | [] => if c = '{' then removeBracesAux rest [c] else c :: removeBracesAux rest []
    | _ :: _ => if c = '}' then removeBracesAux rest [] else removeBracesAux rest (c :: pending)

/-- Removal of curly-brace annotation payloads (first substitution). -/
def removeBraces (l : List Char) : List Char :=
  removeBracesAux l []

/-- Scanner state for `re.sub(r'\d+\.\.?\.?\s*', '', ...)`:
either scanning normally, inside a digit run (held reversed, not yet known
to be followed by a period), or past the mandatory period with up to two
more optional periods and then trailing whitespace to consume. -/
inductive NumSt where
  | norm
  | digitRun (run : List Char)
  | dots1
  | dots2
  | wsSkip

/-- Scanner for `re.sub(r'\d+\.\.?\.?\s*', '', ...)`: leftmost-first removal
of digits followed by one to three periods and trailing whitespace.  A digit
run not followed by a period is kept literally (the regex fails there from
every start position inside the run). -/
def removeNumsAux : List Char → NumSt → List Char
  | [], .norm => []
  | [], .digitRun run => run.reverse
  | [], .dots1 => []
  | [], .dots2 => []
  | [], .wsSkip => []
  | c :: rest, .norm =>
    if c.isDigit then removeNumsAux rest (.digitRun [c])
    else c :: removeNumsAux rest .norm
  | c :: rest, .digitRun run =>
    if c.isDigit then removeNumsAux rest (.digitRun (c :: run))
    else if c = '.' then removeNumsAux rest .dots1
    else run.reverse ++ (c :: removeNumsAux rest .norm)
  | c :: rest, .dots1 =>
    if c = '.' then removeNumsAux rest .dots2
    else if isPySpace c then removeNumsAux rest .wsSkip
    else if c.isDigit then removeNumsAux rest (.digitRun [c])
    else c :: removeNumsAux rest .norm
  | c :: rest, .dots2 =>
    if c = '.' then removeNumsAux rest .wsSkip
    else if isPySpace c then removeNumsAux rest .wsSkip
    else if c.isDigit then removeNumsAux rest (.digitRun [c])
    else c :: removeNumsAux rest .norm
  | c :: rest, .wsSkip =>
    if isPySpace c then removeNumsAux rest .wsSkip
    else if c.isDigit then removeNumsAux rest (.digitRun [c])
    else c :: removeNumsAux rest .norm

/-- Removal of move-number markers (second substitution). -/
def removeMoveNumbers (l : List Char) : List Char :=
  removeNumsAux l .norm

/-- The fixed result markers of the third substitution. -/
def resultMarkers : List (List Char) :=
  [['0', '-', '1'], ['1', '-', '0'], ['1', '/', '2', '-', '1', '/', '2']]

/-- Whether `p` is an initial segment of `l`. -/
def startsWith : List Char → List Char → Bool
  | [], _ => true
  | _ :: _, [] => false
  | a :: as, b :: bs => a = b && startsWith as bs

/-- Does the suffix beginning here match `\s*(0-1|1-0|1/2-1/2)\s*$`?
Markers start with a digit, so the leading `\s*` must consume exactly the
leading whitespace run; the greedy trailing `\s*` together with `$` accepts
exactly an all-whitespace remainder (a `$` just before a final newline is
subsumed by the greedy whitespace run). -/
def sufMatch (l : List Char) : Bool :=
  let l1 := l.dropWhile isPySpace
  resultMarkers.any (fun m => startsWith m l1 && (l1.drop m.length).all isPySpace)

/-- Deletion step of `re.sub(r'\s*(0-1|1-0|1/2-1/2)\s*$', '', ...)`: delete
from the leftmost position whose suffix matches the anchored pattern. -/
def stripResult : List Char → List Char
  | [] => []
  | c :: rest => if sufMatch (c :: rest) then [] else c :: stripResult rest

/-- Python `str.split()` (no argument): split on whitespace runs, with no
empty tokens, so the source's subsequent strip-and-filter is the identity. -/
def splitWSAux : List Char → List Char → List String
  | [], acc => if acc.isEmpty then [] else [String.mk acc.reverse]
  | c :: rest, acc =>
    if isPySpace c then
      if acc.isEmpty then splitWSAux rest []
      else String.mk acc.reverse :: splitWSAux rest []
    else splitWSAux rest (c :: acc)

/-- Python `str.split()` on a character list. -/
def splitWS (l : List Char) : List String :=
  splitWSAux l []

/-- The Movetext Normalizer: the three substitutions of
`extract_uci_moves_from_movetext` followed by whitespace tokenization. -/
def clean_tokens (movetext : String) : List String :=
  splitWS (stripResult (removeMoveNumbers (removeBraces movetext.data)))

/-- Outcome of `board.parse_san(token)`: a legal move, an exception of the
caught classes (InvalidMoveError, IllegalMoveError, ValueError), or any
other, uncaught exception. -/
inductive SanResult (M : Type) where
  | ok (m : M)
  | caught
  | uncaught
deriving DecidableEq

/-- Modelled from the spec: the external rules-validation library
(python-chess) behind the plug-in boundary "{initialize, apply-if-legal,
render}".  `parse_san` interprets a token as a move legal in the current
position or fails; `uci` and `from_uci` are the canonical move-identifier
encoder and decoder; `push` applies a move without checking legality;
`render` is the textual board depiction.  The two contract fields are the
library guarantees the spec relies on: a parsed move is legal in the
position it was parsed in, and the identifier encoding round-trips. -/
structure ChessEngine where
  Board : Type
  Move : Type
  initial : Board
  parse_san : Board → String → SanResult Move
  uci : Move → String
  push : Board → Move → Board
  from_uci : String → Option Move
  legal : Board → Move → Bool
  render : Board → String
  legal_of_parse : ∀ b s m, parse_san b s = SanResult.ok m → legal b m = true
  from_uci_uci : ∀ m, from_uci (uci m) = some m

/-- The translation loop of `extract_uci_moves_from_movetext`: append the
identifier of each successfully parsed token and advance the board; stop
(keeping the accumulated identifiers) on a caught exception; `none` models
an uncaught exception escaping to the outer handler, discarding everything. -/
def translateTokens (E : ChessEngine) (b : E.Board) : List String → Option (List String)
  | [] => some []
  | san :: rest =>
    match E.parse_san b san with
    | .ok m =>
      match translateTokens E (E.push b m) rest with
      | some l => some (E.uci m :: l)
      | none => none
    | .caught => some []
    | .uncaught => none

/-- The function `extract_uci_moves_from_movetext`: normalize, then
translate; the outer
`except Exception` turns an uncaught error into the empty move list. -/
def extract_uci_moves_from_movetext (E : ChessEngine) (movetext : String) : List String :=
  match translateTokens E E.initial (clean_tokens movetext) with
  | some l => l
  | none => []

/-- The replay loop of `get_board_ascii`: `chess.Move.from_uci` then
`board.push` for each identifier; `none` models the caught parse failure.
`push` itself performs no legality check. -/
def replayUci (E : ChessEngine) (b : E.Board) : List String → Option E.Board
  | [] => some b
  | s :: rest =>
    match E.from_uci s with
    | some m => replayUci E (E.push b m) rest
    | none => none

/-- The function `get_board_ascii`: render the board after replaying the
identifiers,
or render a fresh initial board if any identifier fails to parse. -/
def get_board_ascii (E : ChessEngine) (uci_moves : List String) : String :=
  match replayUci E E.initial uci_moves with
  | some b => E.render b
  | none => E.render E.initial

/-- Python `' '.join`. -/
def joinSpace : List String → String
  | [] => ""
  | [s] => s
  | s :: rest => s ++ " " ++ joinSpace rest

/-- The function `generate_move_prefixes`: for each truncation length from
`max 1 min_moves` to the full list length, append the space-joined
truncation and its board rendering to the two accumulated lists. -/
def generate_move_prefixes (E : ChessEngine) (uci_moves : List String)
    (min_moves : Int) : List String × List String :=
  let start_idx : Nat := (max 1 min_moves).toNat
  (List.range' start_idx (uci_moves.length + 1 - start_idx)).foldl
    (fun acc i =>
      (acc.1 ++ [joinSpace (uci_moves.take i)],
       acc.2 ++ [get_board_ascii E (uci_moves.take i)]))
    ([], [])

/-- A corpus record: `none` when the `movetext` key is absent,
`some none` when it is present but null, `some (some s)` otherwise. -/
structure GameRecord where
  movetext : Option (Option String)

/-- Body of the `process_dataset` loop for one record: skip a missing or
null transcript, skip an empty or shorter-than-15 canonical move list, and
otherwise append the generated move strings and board renderings. -/
def recordStep (E : ChessEngine) (acc : List String × List String)
    (game : GameRecord) : List String × List String :=
  match game.movetext with
  | none => acc
  | some none => acc
  | some (some movetext) =>
    let uci_moves := extract_uci_moves_from_movetext E movetext
    if uci_moves.length = 0 then acc
    else if uci_moves.length < 15 then acc
    else
      let pb := generate_move_prefixes E uci_moves 15
      (acc.1 ++ pb.1, acc.2 ++ pb.2)

/-- The function `process_dataset`: cap the record count only when
`max_games` is truthy
(present and nonzero), then run the per-record step over the kept records
in corpus order. -/
def process_dataset (E : ChessEngine) (input_dataset : List GameRecord)
    (max_games : Option Int) : List String × List String :=
  let num_games : Int :=
    match max_games with
    | some m => if m = 0 then (input_dataset.length : Int)
                else min (input_dataset.length : Int) m
    | none => (input_dataset.length : Int)
  (input_dataset.take num_games.toNat).foldl (recordStep E) ([], [])

/-- A concrete engine for evaluating the pipeline: boards are the pushed
move history, the only two moves are `true` (legal, SAN token `x`,
identifier `t`) and `false` (never legal, identifier `f`); SAN token `z`
raises an uncaught exception, every other unknown token a caught one. -/
def ToyEngine : ChessEngine where
  Board := List Bool
  Move := Bool
  initial := []
  parse_san := fun _ s =>
    if s = "x" then .ok true else if s = "z" then .uncaught else .caught
  uci := fun m => if m then "t" else "f"
  push := fun b m => b ++ [m]
  from_uci := fun s =>
    if s = "t" then some true else if s = "f" then some false else none
  legal := fun _ m => m
  render := fun b => String.join (b.map (fun m => if m then "t" else "f"))
  legal_of_parse := by
    intro b s m h
    by_cases hx : s = "x"
    · simp only [hx, if_pos rfl] at h
      cases h
      rfl
    · by_cases hz : s = "z" <;> simp [hx, hz] at h
  from_uci_uci := by
    intro m
    cases m <;> rfl

/-- Length of the longest token run that parses successfully from `b`. -/
def okPartLen (E : ChessEngine) (b : E.Board) : List String → Nat
  | [] => 0
  | s :: rest =>
    match E.parse_san b s with
    | .ok m => okPartLen E (E.push b m) rest + 1
    | _ => 0

/-- Identifiers of the longest token run that parses successfully from `b`. -/
def translateOkPart (E : ChessEngine) (b : E.Board) : List String → List String
  | [] => []
  | s :: rest =>
    match E.parse_san b s with
    | .ok m => E.uci m :: translateOkPart E (E.push b m) rest
    | _ => []

/-- Board reached after the longest successfully parsing token run. -/
def boardAfterOk (E : ChessEngine) (b : E.Board) : List String → E.Board
  | [] => b
  | s :: rest =>
    match E.parse_san b s with
    | .ok m => boardAfterOk E (E.push b m) rest
    | _ => b

/-- Does the token ending the successful run raise an uncaught exception? -/
def stopsUncaught (E : ChessEngine) (b : E.Board) : List String → Bool
  | [] => false
  | s :: rest =>
    match E.parse_san b s with
    | .ok m => stopsUncaught E (E.push b m) rest
    | .caught => false
    | .uncaught => true

/-- Every identifier decodes to a move legal in the position reached by
replaying all preceding identifiers from `b`. -/
def legalChain (E : ChessEngine) (b : E.Board) : List String → Bool
  | [] => true
  | s :: rest =>
    match E.from_uci s with
    | some m => E.legal b m && legalChain E (E.push b m) rest
    | none => false

theorem translateTokens_of_not_uncaught (E : ChessEngine) :
    ∀ (ts : List String) (b : E.Board), stopsUncaught E b ts = false →
      translateTokens E b ts = some (translateOkPart E b ts) := by
  intro ts
  induction ts with
  | nil => intro b _; rfl
  | cons s rest ih =>
    intro b h
    cases hp : E.parse_san b s with
    | ok m =>
      simp only [stopsUncaught, hp] at h
      simp only [translateTokens, translateOkPart, hp, ih (E.push b m) h]
    | caught => simp only [translateTokens, translateOkPart, hp]
    | uncaught =>
      simp only [stopsUncaught, hp] at h
      exact Bool.noConfusion h

theorem translateTokens_of_uncaught (E : ChessEngine) :
    ∀ (ts : List String) (b : E.Board), stopsUncaught E b ts = true →
      translateTokens E b ts = none := by
  intro ts
  induction ts with
  | nil => intro b h; simp [stopsUncaught] at h
  | cons s rest ih =>
    intro b h
    cases hp : E.parse_san b s with
    | ok m =>
      simp only [stopsUncaught, hp] at h
      simp only [translateTokens, hp, ih (E.push b m) h]
    | caught =>
      simp only [stopsUncaught, hp] at h
      exact Bool.noConfusion h
    | uncaught => simp only [translateTokens, hp]

theorem legalChain_translateOkPart (E : ChessEngine) :
    ∀ (ts : List String) (b : E.Board),
      legalChain E b (translateOkPart E b ts) = true := by
  intro ts
  induction ts with
  | nil => intro b; rfl
  | cons s rest ih =>
    intro b
    cases hp : E.parse_san b s with
    | ok m =>
      simp only [translateOkPart, hp, legalChain, E.from_uci_uci m,
        E.legal_of_parse b s m hp, Bool.true_and]
      exact ih (E.push b m)
    | caught => simp only [translateOkPart, hp, legalChain]
    | uncaught => simp only [translateOkPart, hp, legalChain]

theorem replayUci_of_translateTokens (E : ChessEngine) :
    ∀ (ts : List String) (b : E.Board) (l : List String),
      translateTokens E b ts = some l →
      replayUci E b l = some (boardAfterOk E b ts) := by
  intro ts
  induction ts with
  | nil =>
    intro b l h
    simp only [translateTokens, Option.some.injEq] at h
    subst h
    rfl
  | cons s rest ih =>
    intro b l h
    cases hp : E.parse_san b s with
    | ok m =>
      simp only [translateTokens, hp] at h
      cases ht : translateTokens E (E.push b m) rest with
      | some l' =>
        rw [ht] at h
        simp only [Option.some.injEq] at h
        subst h
        simp only [replayUci, E.from_uci_uci m, boardAfterOk, hp]
        exact ih (E.push b m) l' ht
      | none => rw [ht] at h; cases h
    | caught =>
      simp only [translateTokens, hp, Option.some.injEq] at h
      subst h
      simp only [replayUci, boardAfterOk, hp]
    | uncaught =>
      simp only [translateTokens, hp] at h
      exact Option.noConfusion h

theorem length_translateOkPart (E : ChessEngine) :
    ∀ (ts : List String) (b : E.Board),
      (translateOkPart E b ts).length = okPartLen E b ts := by
  intro ts
  induction ts with
  | nil => intro b; rfl
  | cons s rest ih =>
    intro b
    cases hp : E.parse_san b s with
    | ok m => simp only [translateOkPart, hp, okPartLen, List.length_cons, ih (E.push b m)]
    | caught => simp only [translateOkPart, hp, okPartLen, List.length_nil]
    | uncaught => simp only [translateOkPart, hp, okPartLen, List.length_nil]

theorem okPartLen_le_length (E : ChessEngine) :
    ∀ (ts : List String) (b : E.Board), okPartLen E b ts ≤ ts.length := by
  intro ts
  induction ts with
  | nil => intro b; exact Nat.le_refl 0
  | cons s rest ih =>
    intro b
    cases hp : E.parse_san b s with
    | ok m =>
      simp only [okPartLen, hp, List.length_cons]
      exact Nat.succ_le_succ (ih (E.push b m))
    | caught => simp only [okPartLen, hp]; exact Nat.zero_le _
    | uncaught => simp only [okPartLen, hp]; exact Nat.zero_le _

theorem okPartLen_maximal (E : ChessEngine) :
    ∀ (ts : List String) (b : E.Board) (s : String) (rest : List String),
      ts.drop (okPartLen E b ts) = s :: rest →
      ∀ m, E.parse_san (boardAfterOk E b ts) s ≠ SanResult.ok m := by
  intro ts
  induction ts with
  | nil => intro b s rest h; simp at h
  | cons s0 rest0 ih =>
    intro b s rest h m
    cases hp : E.parse_san b s0 with
    | ok m0 =>
      simp only [okPartLen, hp, List.drop_succ_cons, boardAfterOk] at h ⊢
      exact ih (E.push b m0) s rest h m
    | caught =>
      simp only [okPartLen, hp, List.drop_zero, List.cons.injEq] at h
      simp only [boardAfterOk, hp]
      rw [← h.1, hp]
      intro hc
      cases hc
    | uncaught =>
      simp only [okPartLen, hp, List.drop_zero, List.cons.injEq] at h
      simp only [boardAfterOk, hp]
      rw [← h.1, hp]
      intro hc
      cases hc

theorem foldl_pairAppend (f g : Nat → String) :
    ∀ (idxs : List Nat) (acc : List String × List String),
      idxs.foldl (fun a i => (a.1 ++ [f i], a.2 ++ [g i])) acc
        = (acc.1 ++ idxs.map f, acc.2 ++ idxs.map g) := by
  intro idxs
  induction idxs with
  | nil => intro acc; simp
  | cons i rest ih =>
    intro acc
    rw [List.foldl_cons, ih]
    simp

theorem generate_move_prefixes_eq (E : ChessEngine) (l : List String) (t : Int) :
    generate_move_prefixes E l t =
      ((List.range' (max 1 t).toNat (l.length + 1 - (max 1 t).toNat)).map
         (fun i => joinSpace (l.take i)),
       (List.range' (max 1 t).toNat (l.length + 1 - (max 1 t).toNat)).map
         (fun i => get_board_ascii E (l.take i))) := by
  unfold generate_move_prefixes
  rw [foldl_pairAppend]
  simp

theorem getD_map_range' (f : Nat → String) :
    ∀ (k s j : Nat), j < k →
      ((List.range' s k).map f).getD j "" = f (s + j) := by
  intro k
  induction k with
  | zero => intro s j h; omega
  | succ k ih =>
    intro s j h
    rw [List.range'_succ]
    cases j with
    | zero => simp
    | succ j =>
      simp only [List.map_cons, List.getD_cons_succ]
      rw [ih (s + 1) j (by omega)]
      congr 1
      omega

/-- C1: every identifier returned by the Translator decodes to a move legal
in the position obtained by replaying all preceding identifiers from the
initial position, and the returned list is the translation of the longest
token run that parses and validates, processing stopping at the first
failing token (provided no uncaught exception arises, in which case C5's
empty-list behavior applies instead). -/
theorem C1_translator_legal_longest (E : ChessEngine) (mv : String)
    (h : stopsUncaught E E.initial (clean_tokens mv) = false) :
    legalChain E E.initial (extract_uci_moves_from_movetext E mv) = true
    ∧ extract_uci_moves_from_movetext E mv
        = translateOkPart E E.initial (clean_tokens mv)
    ∧ (extract_uci_moves_from_movetext E mv).length
        = okPartLen E E.initial (clean_tokens mv)
    ∧ okPartLen E E.initial (clean_tokens mv) ≤ (clean_tokens mv).length
    ∧ (∀ s rest,
        (clean_tokens mv).drop (okPartLen E E.initial (clean_tokens mv))
          = s :: rest →
        ∀ m, E.parse_san (boardAfterOk E E.initial (clean_tokens mv)) s
          ≠ SanResult.ok m) := by
  have he : extract_uci_moves_from_movetext E mv
      = translateOkPart E E.initial (clean_tokens mv) := by
    unfold extract_uci_moves_from_movetext
    rw [translateTokens_of_not_uncaught E _ _ h]
  refine ⟨?_, he, ?_, okPartLen_le_length E _ _, okPartLen_maximal E _ _⟩
  · rw [he]
    exact legalChain_translateOkPart E _ _
  · rw [he]
    exact length_translateOkPart E _ _

theorem C1_witness :
    stopsUncaught ToyEngine ToyEngine.initial (clean_tokens "x y") = false
    ∧ legalChain ToyEngine ToyEngine.initial
        (extract_uci_moves_from_movetext ToyEngine "x y") = true :=
  ⟨by decide, (C1_translator_legal_longest ToyEngine "x y" (by decide)).1⟩

/-- C5: the Translator is a total function; when the run of successfully
parsed tokens ends in a caught (unparseable/illegal) failure or exhausts
the input, it returns exactly the identifiers accumulated so far, and when
an uncaught exception interrupts the run it returns the empty list. -/
theorem C5_translator_error_handling (E : ChessEngine) (mv : String) :
    (stopsUncaught E E.initial (clean_tokens mv) = true →
       extract_uci_moves_from_movetext E mv = [])
    ∧ (stopsUncaught E E.initial (clean_tokens mv) = false →
       extract_uci_moves_from_movetext E mv
         = translateOkPart E E.initial (clean_tokens mv)) := by
  constructor
  · intro h
    unfold extract_uci_moves_from_movetext
    rw [translateTokens_of_uncaught E _ _ h]
  · intro h
    unfold extract_uci_moves_from_movetext
    rw [translateTokens_of_not_uncaught E _ _ h]

theorem C5_witness :
    extract_uci_moves_from_movetext ToyEngine "x z x" = []
    ∧ extract_uci_moves_from_movetext ToyEngine "x y"
        = translateOkPart ToyEngine ToyEngine.initial (clean_tokens "x y") :=
  ⟨(C5_translator_error_handling ToyEngine "x z x").1 (by decide),
   (C5_translator_error_handling ToyEngine "x y").2 (by decide)⟩

/-- C6: `get_board_ascii` renders the initial position whenever the replay
of its input fails, and on every move list the Translator returns the
replay succeeds, so the rendering is that of the position reached by
replaying the whole list. -/
theorem C6_board_ascii_fallback :
    (∀ (E : ChessEngine) (l : List String),
        replayUci E E.initial l = none →
        get_board_ascii E l = E.render E.initial)
    ∧ (∀ (E : ChessEngine) (mv : String),
        ∃ b, replayUci E E.initial (extract_uci_moves_from_movetext E mv)
               = some b
          ∧ get_board_ascii E (extract_uci_moves_from_movetext E mv)
               = E.render b) := by
  constructor
  · intro E l h
    unfold get_board_ascii
    rw [h]
  · intro E mv
    unfold extract_uci_moves_from_movetext
    cases ht : translateTokens E E.initial (clean_tokens mv) with
    | some l =>
      refine ⟨boardAfterOk E E.initial (clean_tokens mv), ?_, ?_⟩
      · exact replayUci_of_translateTokens E _ _ _ ht
      · unfold get_board_ascii
        rw [replayUci_of_translateTokens E _ _ _ ht]
    | none => exact ⟨E.initial, rfl, rfl⟩

theorem C6_witness :
    get_board_ascii ToyEngine ["q"] = ToyEngine.render ToyEngine.initial :=
  C6_board_ascii_fallback.1 ToyEngine ["q"] rfl

/-- C10: the board renderer applies every identifier that decodes, with no
legality check — whenever the whole list decodes, the rendering is that of
the board obtained by pushing every decoded move — and a decodable but
illegal move therefore yields the resulting illegal position's rendering,
not the initial one. -/
theorem C10_push_without_legality :
    (∀ (E : ChessEngine) (l : List String) (b : E.Board),
        replayUci E E.initial l = some b → get_board_ascii E l = E.render b)
    ∧ (ToyEngine.from_uci "f" = some false
       ∧ ToyEngine.legal ToyEngine.initial false = false
       ∧ get_board_ascii ToyEngine ["f"]
           = ToyEngine.render (ToyEngine.push ToyEngine.initial false)
       ∧ get_board_ascii ToyEngine ["f"] ≠ ToyEngine.render ToyEngine.initial) := by
  constructor
  · intro E l b h
    unfold get_board_ascii
    rw [h]
  · exact ⟨rfl, rfl, rfl, by decide⟩

theorem C10_witness :
    get_board_ascii ToyEngine ["f"]
      = ToyEngine.render (ToyEngine.push ToyEngine.initial false) :=
  C10_push_without_legality.1 ToyEngine ["f"]
    (ToyEngine.push ToyEngine.initial false) rfl

/-- C8: a maximum-game-count of 0 is falsy in the truthiness test, so the
cap is ignored and the Corpus Driver processes exactly what it would with
no cap at all. -/
theorem C8_max_games_zero_ignored (E : ChessEngine) (ds : List GameRecord) :
    process_dataset E ds (some 0) = process_dataset E ds none := rfl

theorem extract_empty_movetext (E : ChessEngine) :
    extract_uci_moves_from_movetext E "" = [] := rfl

theorem recordStep_skip (E : ChessEngine) (acc : List String × List String)
    (r : GameRecord)
    (h : r.movetext = none ∨ r.movetext = some none
         ∨ r.movetext = some (some "")
         ∨ ∃ mv, r.movetext = some (some mv)
             ∧ (extract_uci_moves_from_movetext E mv).length < 15) :
    recordStep E acc r = acc := by
  rcases h with h | h | h | ⟨mv, hmv, hlen⟩
  · simp [recordStep, h]
  · simp [recordStep, h]
  · simp [recordStep, h, extract_empty_movetext]
  · simp only [recordStep, hmv]
    by_cases h0 : (extract_uci_moves_from_movetext E mv).length = 0
    · simp [h0]
    · simp [h0, hlen]

/-- C7: a record whose transcript field is missing, null or empty, and a
record whose canonical move list is empty or shorter than the threshold,
contributes no rows: removing it from the corpus leaves the Corpus
Driver's output unchanged. -/
theorem C7_driver_skips (E : ChessEngine) (ds1 ds2 : List GameRecord)
    (r : GameRecord)
    (h : r.movetext = none ∨ r.movetext = some none
         ∨ r.movetext = some (some "")
         ∨ ∃ mv, r.movetext = some (some mv)
             ∧ (extract_uci_moves_from_movetext E mv).length < 15) :
    process_dataset E (ds1 ++ r :: ds2) none
      = process_dataset E (ds1 ++ ds2) none := by
  unfold process_dataset
  simp only [Int.toNat_natCast, List.take_length, List.foldl_append,
    List.foldl_cons]
  rw [recordStep_skip E _ r h]

theorem C7_witness :
    process_dataset ToyEngine ([] ++ (⟨none⟩ : GameRecord) :: []) none
      = process_dataset ToyEngine ([] ++ []) none :=
  C7_driver_skips ToyEngine [] [] ⟨none⟩ (Or.inl rfl)

theorem joinSpace_ne_empty (a : String) (rest : List String) (ha : a ≠ "") :
    joinSpace (a :: rest) ≠ "" := by
  cases rest with
  | nil => simpa [joinSpace] using ha
  | cons b r =>
    intro h
    have hlen := congrArg String.length h
    rw [show joinSpace (a :: b :: r) = a ++ " " ++ joinSpace (b :: r) from rfl]
      at hlen
    simp only [String.length_append] at hlen
    have h1 : (" " : String).length = 1 := rfl
    have h0 : ("" : String).length = 0 := rfl
    omega

/-- C9: every emitted move string is the space-join of a truncation to
some length `i` with `1 ≤ i ≤` the list length — the start index is
clamped to `max 1 min_moves`, so a threshold of 0 or below never produces
the zero-move truncation — and with nonempty move identifiers the emitted
string is itself nonempty. -/
theorem C9_prefixes_nonempty (E : ChessEngine) (l : List String) (t : Int)
    (p : String) (hp : p ∈ (generate_move_prefixes E l t).1) :
    ∃ i, 1 ≤ i ∧ i ≤ l.length ∧ p = joinSpace (l.take i)
      ∧ (l.take i).length = i ∧ ((∀ s ∈ l, s ≠ "") → p ≠ "") := by
  rw [generate_move_prefixes_eq] at hp
  simp only [List.mem_map] at hp
  obtain ⟨i, hi, rfl⟩ := hp
  have hrange := List.mem_range'_1.mp hi
  have h1 : (1 : Int) ≤ max 1 t := le_max_left 1 t
  have hs1 : 1 ≤ (max 1 t).toNat := by omega
  have hle : i ≤ l.length := by omega
  have h1i : 1 ≤ i := by omega
  refine ⟨i, h1i, hle, rfl, ?_, ?_⟩
  · rw [List.length_take]
    omega
  · intro hne
    have htake : (l.take i).length = i := by rw [List.length_take]; omega
    cases hl : l.take i with
    | nil => rw [hl] at htake; simp at htake; omega
    | cons a rest =>
      have ha : a ∈ l := by
        have : a ∈ l.take i := by rw [hl]; exact List.mem_cons_self a rest
        exact List.mem_of_mem_take this
      exact joinSpace_ne_empty a rest (hne a ha)

theorem C9_witness :
    ∃ i, 1 ≤ i ∧ i ≤ (["t"] : List String).length
      ∧ "t" = joinSpace ((["t"] : List String).take i)
      ∧ ((["t"] : List String).take i).length = i
      ∧ ((∀ s ∈ (["t"] : List String), s ≠ "") → "t" ≠ "") :=
  C9_prefixes_nonempty ToyEngine ["t"] 0 "t" (by decide)

/-- C2 counterexample: at threshold 0 with a one-move list the claim
predicts 1 − 0 + 1 = 2 emitted move strings, but the start index is
clamped to max 1 0 = 1, so only one is emitted. -/
theorem C2_counterexample :
    ((generate_move_prefixes ToyEngine ["t"] 0).1.length : Int)
      ≠ (1 : Int) - 0 + 1 := by
  decide

/-- C2 (amended to thresholds ≥ 1, which the clamp `max 1 min_moves`
leaves unchanged): when the list length `n` is at least the threshold `t`,
exactly `n − t + 1` move strings and as many board renderings are emitted,
the `j`-th being the join of the first `t + j` moves — so the truncation
lengths increase strictly from `t` to `n` inclusive; when `n < t`, nothing
is emitted. -/
theorem C2_prefix_count (E : ChessEngine) (l : List String) (t : Int)
    (ht : 1 ≤ t) :
    (t ≤ (l.length : Int) →
       ((generate_move_prefixes E l t).1.length : Int)
           = (l.length : Int) - t + 1
       ∧ (generate_move_prefixes E l t).2.length
           = (generate_move_prefixes E l t).1.length
       ∧ ∀ j, j < (generate_move_prefixes E l t).1.length →
           (generate_move_prefixes E l t).1.getD j ""
               = joinSpace (l.take (t.toNat + j))
           ∧ (l.take (t.toNat + j)).length = t.toNat + j)
    ∧ ((l.length : Int) < t →
       (generate_move_prefixes E l t).1 = []
       ∧ (generate_move_prefixes E l t).2 = []) := by
  have hmax : max 1 t = t := max_eq_right ht
  constructor
  · intro hlen
    have hk : l.length + 1 - (max 1 t).toNat = l.length + 1 - t.toNat := by
      rw [hmax]
    rw [generate_move_prefixes_eq]
    simp only [List.length_map, List.length_range']
    refine ⟨by omega, trivial, ?_⟩
    intro j hj
    rw [hmax] at hj ⊢
    constructor
    · rw [getD_map_range' _ _ _ _ hj]
    · rw [List.length_take]
      omega
  · intro hlen
    have hk : l.length + 1 - (max 1 t).toNat = 0 := by
      rw [hmax]
      omega
    rw [generate_move_prefixes_eq, hk]
    simp

theorem C2_witness :
    ((generate_move_prefixes ToyEngine ["t", "t"] 2).1.length : Int)
      = (((["t", "t"] : List String).length : Int)) - 2 + 1 :=
  ((C2_prefix_count ToyEngine ["t", "t"] 2 (by decide)).1 (by decide)).1

/-- A transcript parsing to 20 legal plies in the concrete engine's
notation, with move numbers and a trailing result marker. -/
def mv20 : String :=
  "1. x x 2. x x 3. x x 4. x x 5. x x 6. x x 7. x x 8. x x 9. x x 10. x x 1-0"

/-- C3: the `j`-th emitted record is the pair of the space-joined first
`start + j` moves and the board rendering of replaying exactly those
moves; and the end-to-end 20-ply example at threshold 15 yields exactly
6 rows, the first joining the first 15 identifiers and the last all 20. -/
theorem C3_prefix_content :
    (∀ (E : ChessEngine) (l : List String) (t : Int) (j : Nat),
        j < (generate_move_prefixes E l t).1.length →
        (generate_move_prefixes E l t).1.getD j ""
            = joinSpace (l.take ((max 1 t).toNat + j))
        ∧ (generate_move_prefixes E l t).2.getD j ""
            = get_board_ascii E (l.take ((max 1 t).toNat + j)))
    ∧ ((extract_uci_moves_from_movetext ToyEngine mv20).length = 20
       ∧ (generate_move_prefixes ToyEngine
            (extract_uci_moves_from_movetext ToyEngine mv20) 15).1.length = 6
       ∧ (generate_move_prefixes ToyEngine
            (extract_uci_moves_from_movetext ToyEngine mv20) 15).2.length = 6
       ∧ (generate_move_prefixes ToyEngine
            (extract_uci_moves_from_movetext ToyEngine mv20) 15).1.getD 0 ""
           = "t t t t t t t t t t t t t t t"
       ∧ (generate_move_prefixes ToyEngine
            (extract_uci_moves_from_movetext ToyEngine mv20) 15).1.getD 5 ""
           = "t t t t t t t t t t t t t t t t t t t t"
       ∧ (process_dataset ToyEngine [⟨some (some mv20)⟩] none).1.length = 6) := by
  constructor
  · intro E l t j hj
    rw [generate_move_prefixes_eq] at hj ⊢
    simp only [List.length_map, List.length_range'] at hj
    exact ⟨getD_map_range' _ _ _ _ hj, getD_map_range' _ _ _ _ hj⟩
  · exact ⟨by decide, by decide, by decide, by decide, by decide, by decide⟩

theorem C3_witness :
    (generate_move_prefixes ToyEngine ["t", "t"] 1).1.getD 0 ""
        = joinSpace ((["t", "t"] : List String).take ((max 1 (1 : Int)).toNat + 0))
    ∧ (generate_move_prefixes ToyEngine ["t", "t"] 1).2.getD 0 ""
        = get_board_ascii ToyEngine
            ((["t", "t"] : List String).take ((max 1 (1 : Int)).toNat + 0)) :=
  C3_prefix_content.1 ToyEngine ["t", "t"] 1 0 (by decide)

/-- A token of the move-number shape: one or more digits followed by one
or more periods and nothing else. -/
def isMoveNumberToken (s : String) : Bool :=
  !(s.data.takeWhile Char.isDigit).isEmpty
  && !(s.data.dropWhile Char.isDigit).isEmpty
  && (s.data.dropWhile Char.isDigit).all (· = '.')

/-- No digit is immediately followed by a period anywhere in the list. -/
def NoNumPair (l : List Char) : Prop :=
  l.Chain' (fun a b => ¬(a.isDigit = true ∧ b = '.'))

/-- Invariant of the move-number scanner: a held digit run is all digits. -/
def stInv : NumSt → Prop
  | .digitRun run => run.all Char.isDigit = true
  | _ => True

theorem ne_dot_of_isDigit {c : Char} (h : c.isDigit = true) : c ≠ '.' := by
  intro hc
  rw [hc] at h
  exact absurd h (by decide)

theorem chain_noNumPair_of_no_dot (l : List Char) (h : ∀ c ∈ l, c ≠ '.') :
    NoNumPair l := by
  induction l with
  | nil => exact List.chain'_nil
  | cons a rest ih =>
    refine List.chain'_cons'.mpr ⟨?_, ih fun c hc => h c (List.mem_cons_of_mem _ hc)⟩
    intro y hy hcon
    exact h y (List.mem_cons_of_mem _ (List.mem_of_mem_head? hy)) hcon.2

theorem noNumPair_cons_of_not_digit {c : Char} (hd : ¬(c.isDigit = true))
    {X : List Char} (hX : NoNumPair X) : NoNumPair (c :: X) := by
  refine List.chain'_cons'.mpr ⟨?_, hX⟩
  intro y _ hcon
  exact hd hcon.1

theorem noNumPair_digits_append {run : List Char}
    (hrun : run.all Char.isDigit = true) {c : Char} (hc : c ≠ '.')
    (hd : ¬(c.isDigit = true)) {X : List Char} (hX : NoNumPair X) :
    NoNumPair (run.reverse ++ (c :: X)) := by
  refine List.Chain'.append ?_ (noNumPair_cons_of_not_digit hd hX) ?_
  · refine chain_noNumPair_of_no_dot _ ?_
    intro x hx
    rw [List.mem_reverse] at hx
    exact ne_dot_of_isDigit (List.all_eq_true.mp hrun x hx)
  · intro x _ y hy
    rw [List.head?_cons] at hy
    cases hy
    intro hcon
    exact hc hcon.2

theorem noNumPair_removeNumsAux :
    ∀ (l : List Char) (st : NumSt), stInv st →
      NoNumPair (removeNumsAux l st) := by
  intro l
  induction l with
  | nil =>
    intro st hst
    cases st with
    | norm => exact List.chain'_nil
    | digitRun run =>
      simp only [removeNumsAux]
      refine chain_noNumPair_of_no_dot _ ?_
      intro c hc
      rw [List.mem_reverse] at hc
      exact ne_dot_of_isDigit (List.all_eq_true.mp hst c hc)
    | dots1 => exact List.chain'_nil
    | dots2 => exact List.chain'_nil
    | wsSkip => exact List.chain'_nil
  | cons c rest ih =>
    intro st hst
    cases st with
    | norm =>
      by_cases hd : c.isDigit = true
      · simp only [removeNumsAux, hd, if_true]
        exact ih _ (by simp [stInv, hd])
      · simp only [removeNumsAux, hd, if_false]
        exact noNumPair_cons_of_not_digit hd (ih .norm trivial)
    | digitRun run =>
      by_cases hd : c.isDigit = true
      · simp only [removeNumsAux, hd, if_true]
        refine ih _ ?_
        simp only [stInv, List.all_cons, Bool.and_eq_true, hd, true_and]
        exact hst
      · by_cases hdot : c = '.'
        · simp only [removeNumsAux, hd, hdot, if_false, if_true]
          exact ih .dots1 trivial
        · simp only [removeNumsAux, hd, hdot, if_false]
          exact noNumPair_digits_append hst hdot hd (ih .norm trivial)
    | dots1 =>
      by_cases hdot : c = '.'
      · simp only [removeNumsAux, hdot, if_true]
        exact ih .dots2 trivial
      · by_cases hsp : isPySpace c = true
        · simp only [removeNumsAux, hdot, hsp, if_false, if_true]
          exact ih .wsSkip trivial
        · by_cases hd : c.isDigit = true
          · simp only [removeNumsAux, hdot, hsp, hd, if_false, if_true]
            exact ih _ (by simp [stInv, hd])
          · simp only [removeNumsAux, hdot, hsp, hd, if_false]
            exact noNumPair_cons_of_not_digit hd (ih .norm trivial)
    | dots2 =>
      by_cases hdot : c = '.'
      · simp only [removeNumsAux, hdot, if_true]
        exact ih .wsSkip trivial
      · by_cases hsp : isPySpace c = true
        · simp only [removeNumsAux, hdot, hsp, if_false, if_true]
          exact ih .wsSkip trivial
        · by_cases hd : c.isDigit = true
          · simp only [removeNumsAux, hdot, hsp, hd, if_false, if_true]
            exact ih _ (by simp [stInv, hd])
          · simp only [removeNumsAux, hdot, hsp, hd, if_false]
            exact noNumPair_cons_of_not_digit hd (ih .norm trivial)
    | wsSkip =>
      by_cases hsp : isPySpace c = true
      · simp only [removeNumsAux, hsp, if_true]
        exact ih .wsSkip trivial
      · by_cases hd : c.isDigit = true
        · simp only [removeNumsAux, hsp, hd, if_false, if_true]
          exact ih _ (by simp [stInv, hd])
        · simp only [removeNumsAux, hsp, hd, if_false]
          exact noNumPair_cons_of_not_digit hd (ih .norm trivial)

theorem noNumPair_removeMoveNumbers (l : List Char) :
    NoNumPair (removeMoveNumbers l) :=
  noNumPair_removeNumsAux l .norm trivial

theorem stripResult_initialSegment : ∀ l : List Char, stripResult l <+: l := by
  intro l
  induction l with
  | nil => exact List.nil_prefix
  | cons c rest ih =>
    by_cases h : sufMatch (c :: rest) = true
    · simp only [stripResult, h, if_true]
      exact List.nil_prefix
    · simp only [stripResult, h, if_false]
      exact List.cons_prefix_cons.mpr ⟨rfl, ih⟩

theorem splitWSAux_token_inside :
    ∀ (l acc : List Char) (tok : String), tok ∈ splitWSAux l acc →
      tok.data <:+: (acc.reverse ++ l) := by
  intro l
  induction l with
  | nil =>
    intro acc tok htok
    simp only [splitWSAux] at htok
    by_cases ha : acc.isEmpty = true
    · rw [if_pos ha] at htok
      exact absurd htok (List.not_mem_nil tok)
    · rw [if_neg ha] at htok
      rw [List.mem_singleton] at htok
      subst htok
      simp
  | cons c rest ih =>
    intro acc tok htok
    simp only [splitWSAux] at htok
    by_cases hs : isPySpace c = true
    · rw [if_pos hs] at htok
      by_cases ha : acc.isEmpty = true
      · rw [if_pos ha] at htok
        have h1 := ih [] tok htok
        simp only [List.reverse_nil, List.nil_append] at h1
        exact h1.trans ((List.suffix_cons c rest).isInfix.trans
          (List.suffix_append acc.reverse (c :: rest)).isInfix)
      · rw [if_neg ha] at htok
        rcases List.mem_cons.mp htok with h | h
        · subst h
          exact (List.prefix_append acc.reverse (c :: rest)).isInfix
        · have h1 := ih [] tok h
          simp only [List.reverse_nil, List.nil_append] at h1
          exact h1.trans ((List.suffix_cons c rest).isInfix.trans
            (List.suffix_append acc.reverse (c :: rest)).isInfix)
    · rw [if_neg hs] at htok
      have h1 := ih (c :: acc) tok htok
      rw [List.reverse_cons, List.append_assoc] at h1
      simpa using h1

theorem not_moveNumberToken_of_noNumPair (l : List Char) (hl : NoNumPair l)
    (tok : String) (h : tok.data <:+: l) : isMoveNumberToken tok = false := by
  have hchain : NoNumPair tok.data := hl.infix h
  by_contra hcon
  rw [Bool.not_eq_false] at hcon
  unfold isMoveNumberToken at hcon
  simp only [Bool.and_eq_true, Bool.not_eq_true', List.isEmpty_eq_false,
    List.all_eq_true, decide_eq_true_eq] at hcon
  obtain ⟨⟨hds, hrest⟩, hall⟩ := hcon
  have hsplit : tok.data.takeWhile Char.isDigit
      ++ tok.data.dropWhile Char.isDigit = tok.data :=
    List.takeWhile_append_dropWhile Char.isDigit tok.data
  rw [NoNumPair, ← hsplit] at hchain
  obtain ⟨_, _, hbound⟩ := List.chain'_append.mp hchain
  have hlast := List.getLast?_eq_getLast (tok.data.takeWhile Char.isDigit) hds
  have hhead := List.head?_eq_head hrest
  have hR := hbound _ hlast _ hhead
  refine hR ⟨?_, ?_⟩
  · exact List.mem_takeWhile_imp (List.getLast_mem hds)
  · exact hall _ (List.head_mem hrest)

theorem startsWith_decomp :
    ∀ (p l : List Char), startsWith p l = true → l = p ++ l.drop p.length := by
  intro p
  induction p with
  | nil => intro l _; rfl
  | cons a as ih =>
    intro l h
    cases l with
    | nil => exact absurd h (by simp [startsWith])
    | cons b bs =>
      simp only [startsWith, Bool.and_eq_true, decide_eq_true_eq] at h
      obtain ⟨rfl, h2⟩ := h
      simp only [List.length_cons, List.drop_succ_cons, List.cons_append,
        List.cons.injEq, true_and]
      exact ih bs h2

theorem sufMatch_decomp (l : List Char) (h : sufMatch l = true) :
    ∃ w1 m w2, m ∈ resultMarkers ∧ w1.all isPySpace = true
      ∧ w2.all isPySpace = true ∧ l = w1 ++ m ++ w2 := by
  simp only [sufMatch, List.any_eq_true, Bool.and_eq_true] at h
  obtain ⟨m, hm, hpref, hall⟩ := h
  refine ⟨l.takeWhile isPySpace, m, (l.dropWhile isPySpace).drop m.length,
    hm, ?_, hall, ?_⟩
  · rw [List.all_eq_true]
    intro x hx
    exact List.mem_takeWhile_imp hx
  · conv_lhs => rw [← List.takeWhile_append_dropWhile isPySpace l]
    rw [List.append_assoc]
    exact congrArg _ (startsWith_decomp m _ hpref)

theorem stripResult_spec : ∀ l : List Char,
    stripResult l = l
    ∨ ∃ w1 m w2, m ∈ resultMarkers ∧ w1.all isPySpace = true
        ∧ w2.all isPySpace = true
        ∧ l = stripResult l ++ (w1 ++ m ++ w2) := by
  intro l
  induction l with
  | nil => exact Or.inl rfl
  | cons c rest ih =>
    by_cases h : sufMatch (c :: rest) = true
    · right
      obtain ⟨w1, m, w2, hm, h1, h2, hdecomp⟩ := sufMatch_decomp _ h
      refine ⟨w1, m, w2, hm, h1, h2, ?_⟩
      rw [show stripResult (c :: rest) = [] from by
        simp [stripResult, h]]
      simpa using hdecomp
    · have hstrip : stripResult (c :: rest) = c :: stripResult rest := by
        simp [stripResult, h]
      rcases ih with heq | ⟨w1, m, w2, hm, h1, h2, hdecomp⟩
      · left
        rw [hstrip, heq]
      · right
        refine ⟨w1, m, w2, hm, h1, h2, ?_⟩
        rw [hstrip, List.cons_append]
        exact congrArg (c :: ·) hdecomp

/-- C4 counterexample: in the transcript `"0-1 x"` the result marker is
not in trailing position, so it survives normalization and appears as an
output token, contradicting the claim that no output token equals a
result marker. -/
theorem C4_counterexample :
    "0-1" ∈ clean_tokens "0-1 x" ∧ "0-1".data ∈ resultMarkers := by
  decide

/-- C4 (amended): no output token of the Normalizer matches the
move-number pattern (digits followed by one or more periods); for result
markers, the third substitution removes at most one whitespace-padded
marker, at the very end of the string — result markers occurring elsewhere
may survive as output tokens. -/
theorem C4_normalizer_tokens (s : String) :
    (∀ tok ∈ clean_tokens s, isMoveNumberToken tok = false)
    ∧ (stripResult (removeMoveNumbers (removeBraces s.data))
         = removeMoveNumbers (removeBraces s.data)
       ∨ ∃ w1 m w2, m ∈ resultMarkers ∧ w1.all isPySpace = true
           ∧ w2.all isPySpace = true
           ∧ removeMoveNumbers (removeBraces s.data)
               = stripResult (removeMoveNumbers (removeBraces s.data))
                   ++ (w1 ++ m ++ w2)) := by
  constructor
  · intro tok htok
    have hchain : NoNumPair (removeMoveNumbers (removeBraces s.data)) :=
      noNumPair_removeMoveNumbers _
    have hstripchain :
        NoNumPair (stripResult (removeMoveNumbers (removeBraces s.data))) :=
      hchain.prefix (stripResult_initialSegment _)
    have hinf := splitWSAux_token_inside _ [] tok htok
    simp only [List.reverse_nil, List.nil_append] at hinf
    exact not_moveNumberToken_of_noNumPair _ hstripchain tok hinf
  · exact stripResult_spec _

theorem C4_witness : isMoveNumberToken "e4" = false :=
  (C4_normalizer_tokens "1. e4").1 "e4" (by decide)
